import Mathlib

set_option linter.unusedSectionVars false

/-!
Shallow embedding of the rust-cache library: a fixed-capacity LRU store
with per-entry TTL expiration, a staged entry lifecycle
(available, calculating, ready, failed), and the public operations
insert, get, len and retrieve_or_compute.

Modelling conventions:
 - timestamps are natural numbers; each operation receives the clock value
   that the Rust code would read from the ambient clock at that point;
 - the LRU store is a list of key-entry pairs in recency order, most
   recently used first, together with its capacity;
 - the miss handler mutates its data and code arguments in Rust, so here it
   maps the seeded values to a success flag plus the updated values;
 - the wait loop in the calculating branch of retrieve_or_compute re-reads
   an entry that a sequential execution never changes, so it never exits;
   that branch is modelled as the result none, as is the unreachable
   unwrap failure on the hit path.
-/

namespace RustCache

inductive EntryStatus : Type where
  | AVAILABLE
  | CALCULATING
  | READY
  | FAILED
deriving DecidableEq

structure Entry (D : Type) where
  data : D
  adhoc_code : Nat
  expiration : Nat
  status : EntryStatus
deriving DecidableEq

variable {K D E : Type}

/-- Entry construction used by the default placeholder of the miss path:
default data, code zero, expiration set to the current instant, status
AVAILABLE. -/
def Entry.mkDefault [Inhabited D] (now : Nat) : Entry D :=
  ⟨default, 0, now, .AVAILABLE⟩

/-- Entry construction used by insert: explicit data, expiration and code,
status AVAILABLE. -/
def Entry.new (data : D) (expiration : Nat) (adhoc_code : Nat) : Entry D :=
  ⟨data, adhoc_code, expiration, .AVAILABLE⟩

/-- An entry is valid while its expiration lies strictly in the future. -/
def Entry.is_valid (e : Entry D) (now : Nat) : Bool :=
  decide (now < e.expiration)

/-- First entry stored under key k, if any. -/
def findEntry [DecidableEq K] (k : K) (l : List (K × E)) : Option E :=
  (l.find? fun p => decide (p.1 = k)).map Prod.snd

/-- Remove every pair stored under key k, keeping the order of the rest. -/
def keyErase [DecidableEq K] (k : K) (l : List (K × E)) : List (K × E) :=
  l.filter fun p => decide (¬ p.1 = k)

/-- The LRU store: capacity plus key-entry pairs in recency order,
most recently used first. -/
structure LruCache (K E : Type) where
  cap : Nat
  entries : List (K × E)
deriving DecidableEq

namespace LruCache

variable [DecidableEq K]

/-- Read without touching the recency order. -/
def peek (c : LruCache K E) (k : K) : Option E :=
  findEntry k c.entries

/-- Read that promotes the found key to most recently used. -/
def get (c : LruCache K E) (k : K) : Option E × LruCache K E :=
  match findEntry k c.entries with
  | some e => (some e, ⟨c.cap, (k, e) :: keyErase k c.entries⟩)
  | none => (none, c)

/-- Unconditional removal. -/
def pop (c : LruCache K E) (k : K) : LruCache K E :=
  ⟨c.cap, keyErase k c.entries⟩

/-- Insert or overwrite, promoting k to most recently used; when a new key
would exceed the capacity, the least recently used pair (the last one) is
evicted. -/
def put (c : LruCache K E) (k : K) (e : E) : LruCache K E :=
  let rest := keyErase k c.entries
  if rest.length < c.cap then ⟨c.cap, (k, e) :: rest⟩
  else ⟨c.cap, (k, e) :: rest.dropLast⟩

/-- Return the existing entry for k (promoting it), or insert the supplied
one. -/
def get_or_insert_mut (c : LruCache K E) (k : K) (e : E) : E × LruCache K E :=
  match findEntry k c.entries with
  | some e0 => (e0, ⟨c.cap, (k, e0) :: keyErase k c.entries⟩)
  | none => (e, c.put k e)

/-- Current occupancy. -/
def len (c : LruCache K E) : Nat :=
  c.entries.length

end LruCache

/-- The cache: LRU store, miss handler, positive TTL for successful
computations, negative TTL for failed ones. -/
structure Cache (K D : Type) where
  lru_cache : LruCache K (Entry D)
  miss_handler : K → D → Nat → Bool × D × Nat
  positive_ttl : Nat
  negative_ttl : Nat

namespace Cache

variable [DecidableEq K] [Inhabited D]

/-- Replace the store component, keeping handler and TTLs. -/
def withLru (c : Cache K D) (l : LruCache K (Entry D)) : Cache K D :=
  ⟨l, c.miss_handler, c.positive_ttl, c.negative_ttl⟩

/-- Construction: the store is created from a nonzero capacity; a zero
capacity makes the NonZeroUsize unwrap fail at construction time, modelled
as none. -/
def new (size : Nat) (mh : K → D → Nat → Bool × D × Nat)
    (positive_ttl negative_ttl : Nat) : Option (Cache K D) :=
  if size = 0 then none
  else some ⟨⟨size, []⟩, mh, positive_ttl, negative_ttl⟩

/-- insert: unconditionally put an entry carrying the data, code zero and
expiration now plus the positive TTL. -/
def insert (c : Cache K D) (now : Nat) (k : K) (d : D) : Cache K D :=
  c.withLru (c.lru_cache.put k (Entry.new d (now + c.positive_ttl) 0))

/-- is_in_cache: a promoting lookup decides whether a valid entry exists;
when it does not (absent or expired), the key is popped from the store. -/
def is_in_cache (c : Cache K D) (now : Nat) (k : K) : Bool × Cache K D :=
  let r := c.lru_cache.get k
  let ok := match r.1 with
    | some e => e.is_valid now
    | none => false
  if ok then (true, c.withLru r.2)
  else (false, c.withLru ((r.2).pop k))

/-- get: if is_in_cache succeeds, a second promoting lookup returns the
data; otherwise none. -/
def get (c : Cache K D) (now : Nat) (k : K) : Option D × Cache K D :=
  let s := c.is_in_cache now k
  if s.1 then
    let r := (s.2).lru_cache.get k
    ((r.1).map Entry.data, (s.2).withLru r.2)
  else (none, s.2)

/-- Current occupancy. -/
def len (c : Cache K D) : Nat :=
  c.lru_cache.len

/-- retrieve_or_compute. On a hit the stored entry is peeked and its data
and code are returned for the READY, FAILED and AVAILABLE statuses; the
CALCULATING status enters a wait loop that a sequential execution never
leaves, modelled as none. On a miss a local placeholder is created with
status CALCULATING, the miss handler is invoked on its seeded data and
code, the terminal status and TTL-based expiration are written into the
local entry, and only then is the finished entry inserted into the store.
t_check is the clock at the validity test, t_done the clock after the
computation returns. The boolean in the result records whether the miss
handler was invoked. -/
def retrieve_or_compute (c : Cache K D) (t_check t_done : Nat) (k : K) :
    Option ((D × Nat) × Cache K D × Bool) :=
  let s := c.is_in_cache t_check k
  if s.1 then
    match (s.2).lru_cache.peek k with
    | some e =>
      match e.status with
      | .READY => some ((e.data, e.adhoc_code), s.2, false)
      | .FAILED => some ((e.data, e.adhoc_code), s.2, false)
      | .CALCULATING => none
      | .AVAILABLE => some ((e.data, e.adhoc_code), s.2, false)
    | none => none
  else
    let e0 : Entry D := Entry.mkDefault t_check
    let e1 : Entry D := ⟨e0.data, e0.adhoc_code, e0.expiration, .CALCULATING⟩
    let h := c.miss_handler k e1.data e1.adhoc_code
    let e2 : Entry D :=
      if h.1 then ⟨h.2.1, h.2.2, t_done + c.positive_ttl, .READY⟩
      else ⟨h.2.1, h.2.2, t_done + c.negative_ttl, .FAILED⟩
    let r := (s.2).lru_cache.get_or_insert_mut k e2
    some (((r.1).data, (r.1).adhoc_code), (s.2).withLru r.2, true)

end Cache

/-! Basic lemmas about findEntry and keyErase. -/

section ListLemmas

variable [DecidableEq K]

theorem findEntry_nil (k : K) : findEntry k ([] : List (K × E)) = none := rfl

theorem findEntry_cons_self (k : K) (e : E) (l : List (K × E)) :
    findEntry k ((k, e) :: l) = some e := by
  simp [findEntry]

theorem findEntry_cons_ne (k k1 : K) (e : E) (l : List (K × E)) (h : k1 ≠ k) :
    findEntry k ((k1, e) :: l) = findEntry k l := by
  simp [findEntry, List.find?_cons_of_neg, h]

theorem findEntry_eq_none_iff (k : K) (l : List (K × E)) :
    findEntry k l = none ↔ ∀ p ∈ l, p.1 ≠ k := by
  simp [findEntry, List.find?_eq_none]

theorem mem_of_findEntry_eq_some (k : K) (e : E) (l : List (K × E))
    (h : findEntry k l = some e) : (k, e) ∈ l := by
  unfold findEntry at h
  cases hf : l.find? fun p => decide (p.1 = k) with
  | none => rw [hf] at h; simp at h
  | some p =>
    rw [hf] at h
    simp only [Option.map] at h
    have hk : p.1 = k := by
      have := List.find?_some hf
      simpa using this
    have hm := List.mem_of_find?_eq_some hf
    have hpe : p = (k, e) := by
      cases p
      simp only at hk
      simp only [Option.some.injEq] at h
      simp [hk, h]
    rw [hpe] at hm
    exact hm

theorem keyErase_eq_self_of_absent (k : K) (l : List (K × E))
    (h : findEntry k l = none) : keyErase k l = l := by
  apply List.filter_eq_self.mpr
  intro p hp
  have := (findEntry_eq_none_iff k l).mp h p hp
  simpa using this

theorem findEntry_keyErase_self (k : K) (l : List (K × E)) :
    findEntry k (keyErase k l) = none := by
  rw [findEntry_eq_none_iff]
  intro p hp
  have := (List.mem_filter.mp hp).2
  simpa using this

theorem keyErase_cons_self (k : K) (e : E) (l : List (K × E)) :
    keyErase k ((k, e) :: l) = keyErase k l := by
  simp [keyErase]

theorem keyErase_keyErase (k : K) (l : List (K × E)) :
    keyErase k (keyErase k l) = keyErase k l :=
  keyErase_eq_self_of_absent k (keyErase k l) (findEntry_keyErase_self k l)

theorem length_keyErase_le (k : K) (l : List (K × E)) :
    (keyErase k l).length ≤ l.length :=
  List.length_filter_le _ l

theorem mem_of_mem_keyErase (k : K) (p : K × E) (l : List (K × E))
    (h : p ∈ keyErase k l) : p ∈ l :=
  List.mem_of_mem_filter h

end ListLemmas

/-! Lemmas about the LRU store operations. -/

namespace LruCache

variable [DecidableEq K]

theorem put_cap (c : LruCache K E) (k : K) (e : E) : (c.put k e).cap = c.cap := by
  by_cases h : (keyErase k c.entries).length < c.cap <;> simp [put, h]

theorem put_entries (c : LruCache K E) (k : K) (e : E) :
    (c.put k e).entries
      = (k, e) :: (if (keyErase k c.entries).length < c.cap
          then keyErase k c.entries else (keyErase k c.entries).dropLast) := by
  by_cases h : (keyErase k c.entries).length < c.cap <;> simp [put, h]

theorem head_put (c : LruCache K E) (k : K) (e : E) :
    (c.put k e).entries.head? = some (k, e) := by
  rw [put_entries]
  rfl

theorem findEntry_put_self (c : LruCache K E) (k : K) (e : E) :
    findEntry k (c.put k e).entries = some e := by
  rw [put_entries]
  exact findEntry_cons_self k e _

theorem mem_put (c : LruCache K E) (k : K) (e : E) (p : K × E)
    (h : p ∈ (c.put k e).entries) : p = (k, e) ∨ p ∈ c.entries := by
  rw [put_entries] at h
  rcases List.mem_cons.mp h with h1 | h1
  · exact Or.inl h1
  · right
    split at h1
    · exact mem_of_mem_keyErase k p _ h1
    · exact mem_of_mem_keyErase k p _ ((List.dropLast_sublist _).subset h1)

theorem len_put_le (c : LruCache K E) (k : K) (e : E)
    (hcap : 0 < c.cap) (hlen : c.len ≤ c.cap) : (c.put k e).len ≤ c.cap := by
  have hrest : (keyErase k c.entries).length ≤ c.cap :=
    le_trans (length_keyErase_le k c.entries) hlen
  unfold len
  rw [put_entries]
  split
  · next hlt => simpa using hlt
  · next hge =>
    have heq : (keyErase k c.entries).length = c.cap := le_antisymm hrest (le_of_not_lt hge)
    have hne : keyErase k c.entries ≠ [] := by
      intro hnil
      rw [hnil] at heq
      simp at heq
      omega
    simp only [List.length_cons, List.length_dropLast, heq]
    omega

theorem put_entries_full (c : LruCache K E) (k : K) (e : E)
    (hk : findEntry k c.entries = none) (hlen : c.len = c.cap) :
    (c.put k e).entries = (k, e) :: c.entries.dropLast := by
  rw [put_entries, keyErase_eq_self_of_absent k c.entries hk]
  have : ¬ c.entries.length < c.cap := by
    unfold len at hlen
    omega
  simp [this]

end LruCache

/-! Characterizations of the cache operations, by cases on presence and
validity of the entry stored under the requested key. -/

namespace Cache

variable [DecidableEq K] [Inhabited D]

/-- The entry that the miss path of retrieve_or_compute builds: the miss
handler applied to the default-seeded data and code zero, stamped with the
terminal status and TTL matching its success flag. -/
def missEntry (c : Cache K D) (t_done : Nat) (k : K) : Entry D :=
  if (c.miss_handler k default 0).1 then
    ⟨(c.miss_handler k default 0).2.1, (c.miss_handler k default 0).2.2,
      t_done + c.positive_ttl, .READY⟩
  else
    ⟨(c.miss_handler k default 0).2.1, (c.miss_handler k default 0).2.2,
      t_done + c.negative_ttl, .FAILED⟩

theorem missEntry_data (c : Cache K D) (t : Nat) (k : K) :
    (c.missEntry t k).data = (c.miss_handler k default 0).2.1 := by
  unfold missEntry
  split <;> rfl

theorem missEntry_adhoc (c : Cache K D) (t : Nat) (k : K) :
    (c.missEntry t k).adhoc_code = (c.miss_handler k default 0).2.2 := by
  unfold missEntry
  split <;> rfl

theorem missEntry_status (c : Cache K D) (t : Nat) (k : K) :
    (c.missEntry t k).status = .READY ∨ (c.missEntry t k).status = .FAILED := by
  unfold missEntry
  split
  · exact Or.inl rfl
  · exact Or.inr rfl

theorem missEntry_eq (c : Cache K D) (t : Nat) (k : K) :
    c.missEntry t k
      = ⟨(c.miss_handler k default 0).2.1, (c.miss_handler k default 0).2.2,
          t + (if (c.miss_handler k default 0).1 then c.positive_ttl else c.negative_ttl),
          if (c.miss_handler k default 0).1 then .READY else .FAILED⟩ := by
  unfold missEntry
  split <;> simp_all

theorem withLru_lru (c : Cache K D) (l : LruCache K (Entry D)) :
    (c.withLru l).lru_cache = l := rfl

theorem is_in_cache_of_valid (c : Cache K D) (now : Nat) (k : K) (e : Entry D)
    (h : findEntry k c.lru_cache.entries = some e) (hv : now < e.expiration) :
    c.is_in_cache now k
      = (true, c.withLru ⟨c.lru_cache.cap, (k, e) :: keyErase k c.lru_cache.entries⟩) := by
  simp [is_in_cache, LruCache.get, h, Entry.is_valid, hv]

theorem is_in_cache_of_expired (c : Cache K D) (now : Nat) (k : K) (e : Entry D)
    (h : findEntry k c.lru_cache.entries = some e) (hv : ¬ now < e.expiration) :
    c.is_in_cache now k
      = (false, c.withLru ⟨c.lru_cache.cap, keyErase k c.lru_cache.entries⟩) := by
  simp only [is_in_cache, LruCache.get, h, Entry.is_valid, LruCache.pop]
  simp [hv, keyErase_cons_self, keyErase_keyErase]

theorem is_in_cache_of_absent (c : Cache K D) (now : Nat) (k : K)
    (h : findEntry k c.lru_cache.entries = none) :
    c.is_in_cache now k
      = (false, c.withLru ⟨c.lru_cache.cap, keyErase k c.lru_cache.entries⟩) := by
  simp [is_in_cache, LruCache.get, h, LruCache.pop]

theorem is_in_cache_fst_true_iff (c : Cache K D) (now : Nat) (k : K) :
    (c.is_in_cache now k).1 = true
      ↔ ∃ e, findEntry k c.lru_cache.entries = some e ∧ now < e.expiration := by
  constructor
  · intro h
    cases hf : findEntry k c.lru_cache.entries with
    | none => rw [is_in_cache_of_absent c now k hf] at h; simp at h
    | some e =>
      by_cases hv : now < e.expiration
      · exact ⟨e, rfl, hv⟩
      · rw [is_in_cache_of_expired c now k e hf hv] at h; simp at h
  · rintro ⟨e, hf, hv⟩
    rw [is_in_cache_of_valid c now k e hf hv]

theorem is_in_cache_false_snd (c : Cache K D) (now : Nat) (k : K)
    (h : (c.is_in_cache now k).1 = false) :
    (c.is_in_cache now k).2
      = c.withLru ⟨c.lru_cache.cap, keyErase k c.lru_cache.entries⟩ := by
  cases hf : findEntry k c.lru_cache.entries with
  | none => rw [is_in_cache_of_absent c now k hf]
  | some e =>
    by_cases hv : now < e.expiration
    · rw [is_in_cache_of_valid c now k e hf hv] at h; simp at h
    · rw [is_in_cache_of_expired c now k e hf hv]

theorem get_of_valid (c : Cache K D) (now : Nat) (k : K) (e : Entry D)
    (h : findEntry k c.lru_cache.entries = some e) (hv : now < e.expiration) :
    c.get now k
      = (some e.data,
          c.withLru ⟨c.lru_cache.cap, (k, e) :: keyErase k c.lru_cache.entries⟩) := by
  simp only [get, is_in_cache_of_valid c now k e h hv]
  simp only [LruCache.get, withLru_lru, findEntry_cons_self, if_true]
  simp [withLru, keyErase_cons_self, keyErase_keyErase]

theorem get_of_expired (c : Cache K D) (now : Nat) (k : K) (e : Entry D)
    (h : findEntry k c.lru_cache.entries = some e) (hv : ¬ now < e.expiration) :
    c.get now k
      = (none, c.withLru ⟨c.lru_cache.cap, keyErase k c.lru_cache.entries⟩) := by
  simp [get, is_in_cache_of_expired c now k e h hv]

theorem get_of_absent (c : Cache K D) (now : Nat) (k : K)
    (h : findEntry k c.lru_cache.entries = none) :
    c.get now k = (none, c) := by
  simp only [get, is_in_cache_of_absent c now k h]
  simp [withLru, keyErase_eq_self_of_absent k c.lru_cache.entries h]

theorem roc_of_hit (c : Cache K D) (t1 t2 : Nat) (k : K) (e : Entry D)
    (h : findEntry k c.lru_cache.entries = some e) (hv : t1 < e.expiration)
    (hs : e.status ≠ .CALCULATING) :
    c.retrieve_or_compute t1 t2 k
      = some ((e.data, e.adhoc_code),
          c.withLru ⟨c.lru_cache.cap, (k, e) :: keyErase k c.lru_cache.entries⟩,
          false) := by
  simp only [retrieve_or_compute, is_in_cache_of_valid c t1 k e h hv]
  simp only [LruCache.peek, withLru_lru, findEntry_cons_self, if_true]
  cases hst : e.status <;> simp_all

theorem roc_of_miss (c : Cache K D) (t1 t2 : Nat) (k : K)
    (h : (c.is_in_cache t1 k).1 = false) :
    c.retrieve_or_compute t1 t2 k
      = some (((c.missEntry t2 k).data, (c.missEntry t2 k).adhoc_code),
          c.withLru
            (LruCache.put ⟨c.lru_cache.cap, keyErase k c.lru_cache.entries⟩ k
              (c.missEntry t2 k)),
          true) := by
  have hsnd := is_in_cache_false_snd c t1 k h
  simp only [retrieve_or_compute, h, Bool.false_eq_true, if_false, hsnd]
  simp only [LruCache.get_or_insert_mut, withLru_lru, findEntry_keyErase_self]
  simp only [Entry.mkDefault, missEntry]
  split <;> rfl

end Cache

/-! Sequences of operations, used for the temporal and invariant claims. -/

section Sequences

variable [DecidableEq K] [Inhabited D]

/-- Repeated sequential calls to retrieve_or_compute on one key, each with
its clock value; returns the list of results paired with the flag telling
whether that call invoked the miss handler, plus the final cache. -/
def rocSeq : Cache K D → K → List Nat → Option (List ((D × Nat) × Bool) × Cache K D)
  | c, _, [] => some ([], c)
  | c, k, t :: ts =>
    match c.retrieve_or_compute t t k with
    | some r =>
      match rocSeq r.2.1 k ts with
      | some rs => some ((r.1, r.2.2) :: rs.1, rs.2)
      | none => none
    | none => none

/-- A sequence of insert operations, each with its clock value, key and
data. -/
def runInserts (c : Cache K D) (ops : List (Nat × K × D)) : Cache K D :=
  ops.foldl (fun c p => c.insert p.1 p.2.1 p.2.2) c

/-- One public operation together with the clock values it reads. -/
inductive Op (K D : Type) where
  | ins (t : Nat) (k : K) (d : D)
  | read (t : Nat) (k : K)
  | roc (t_check t_done : Nat) (k : K)

/-- Run one operation, keeping the resulting cache state. A
retrieve_or_compute that never returns leaves the store as it was. -/
def runOp (c : Cache K D) : Op K D → Cache K D
  | .ins t k d => c.insert t k d
  | .read t k => (c.get t k).2
  | .roc t1 t2 k =>
    match c.retrieve_or_compute t1 t2 k with
    | some r => r.2.1
    | none => c

/-- Run a sequence of public operations. -/
def runOps (c : Cache K D) (ops : List (Op K D)) : Cache K D :=
  ops.foldl runOp c

/-- No entry in the store is in CALCULATING state. -/
def NoCalc (c : Cache K D) : Prop :=
  ∀ p ∈ c.lru_cache.entries, p.2.status ≠ EntryStatus.CALCULATING

instance (c : Cache K D) : Decidable (NoCalc c) := by
  unfold NoCalc
  infer_instance

end Sequences

section SequenceLemmas

variable [DecidableEq K] [Inhabited D]

theorem roc_of_calculating (c : Cache K D) (t1 t2 : Nat) (k : K) (e : Entry D)
    (h : findEntry k c.lru_cache.entries = some e) (hv : t1 < e.expiration)
    (hs : e.status = .CALCULATING) :
    c.retrieve_or_compute t1 t2 k = none := by
  simp only [Cache.retrieve_or_compute, Cache.is_in_cache_of_valid c t1 k e h hv]
  simp only [LruCache.peek, Cache.withLru_lru, findEntry_cons_self, if_true]
  simp [hs]

theorem rocSeq_hits (k : K) (e : Entry D) (ts : List Nat) :
    ∀ c : Cache K D, findEntry k c.lru_cache.entries = some e →
      e.status ≠ .CALCULATING → (∀ t ∈ ts, t < e.expiration) →
      ∃ cf, rocSeq c k ts = some (ts.map (fun _ => ((e.data, e.adhoc_code), false)), cf)
        ∧ findEntry k cf.lru_cache.entries = some e := by
  induction ts with
  | nil =>
    intro c hc _ _
    exact ⟨c, rfl, hc⟩
  | cons t ts ih =>
    intro c hc hs hts
    have hv : t < e.expiration := hts t (List.mem_cons_self t ts)
    have hroc := Cache.roc_of_hit c t t k e hc hv hs
    have hnext : findEntry k
        ((c.withLru ⟨c.lru_cache.cap, (k, e) :: keyErase k c.lru_cache.entries⟩).lru_cache.entries)
        = some e := by
      simp only [Cache.withLru_lru]
      exact findEntry_cons_self k e _
    obtain ⟨cf, hseq, hcf⟩ := ih _ hnext hs (fun t2 ht2 => hts t2 (List.mem_cons_of_mem _ ht2))
    refine ⟨cf, ?_, hcf⟩
    simp only [rocSeq, hroc, hseq, List.map_cons]

theorem noCalc_insert (c : Cache K D) (t : Nat) (k : K) (d : D) (h : NoCalc c) :
    NoCalc (c.insert t k d) := by
  intro p hp
  simp only [Cache.insert, Cache.withLru_lru] at hp
  rcases LruCache.mem_put _ _ _ _ hp with h1 | h1
  · rw [h1]
    simp [Entry.new]
  · exact h p h1

theorem noCalc_get (c : Cache K D) (t : Nat) (k : K) (h : NoCalc c) :
    NoCalc (c.get t k).2 := by
  cases hf : findEntry k c.lru_cache.entries with
  | none =>
    rw [Cache.get_of_absent c t k hf]
    exact h
  | some e =>
    by_cases hv : t < e.expiration
    · rw [Cache.get_of_valid c t k e hf hv]
      intro p hp
      simp only [Cache.withLru_lru] at hp
      rcases List.mem_cons.mp hp with h1 | h1
      · rw [h1]
        exact h (k, e) (mem_of_findEntry_eq_some k e _ hf)
      · exact h p (mem_of_mem_keyErase k p _ h1)
    · rw [Cache.get_of_expired c t k e hf hv]
      intro p hp
      simp only [Cache.withLru_lru] at hp
      exact h p (mem_of_mem_keyErase k p _ hp)

theorem noCalc_roc (c : Cache K D) (t1 t2 : Nat) (k : K) (r : (D × Nat) × Cache K D × Bool)
    (h : NoCalc c) (hroc : c.retrieve_or_compute t1 t2 k = some r) :
    NoCalc r.2.1 := by
  cases hb : (c.is_in_cache t1 k).1 with
  | false =>
    rw [Cache.roc_of_miss c t1 t2 k hb] at hroc
    have hr : r = (((c.missEntry t2 k).data, (c.missEntry t2 k).adhoc_code),
        c.withLru (LruCache.put ⟨c.lru_cache.cap, keyErase k c.lru_cache.entries⟩ k
          (c.missEntry t2 k)), true) := by
      injection hroc with hr
      exact hr.symm
    rw [hr]
    intro p hp
    simp only [Cache.withLru_lru] at hp
    rcases LruCache.mem_put _ _ _ _ hp with h1 | h1
    · rw [h1]
      rcases Cache.missEntry_status c t2 k with h2 | h2 <;> simp [h2]
    · exact h p (mem_of_mem_keyErase k p _ h1)
  | true =>
    obtain ⟨e, hf, hv⟩ := (Cache.is_in_cache_fst_true_iff c t1 k).mp hb
    by_cases hs : e.status = .CALCULATING
    · rw [roc_of_calculating c t1 t2 k e hf hv hs] at hroc
      cases hroc
    · rw [Cache.roc_of_hit c t1 t2 k e hf hv hs] at hroc
      have hr : r.2.1
          = c.withLru ⟨c.lru_cache.cap, (k, e) :: keyErase k c.lru_cache.entries⟩ := by
        injection hroc with hr
        rw [hr.symm]
      rw [hr]
      intro p hp
      simp only [Cache.withLru_lru] at hp
      rcases List.mem_cons.mp hp with h1 | h1
      · rw [h1]
        exact h (k, e) (mem_of_findEntry_eq_some k e _ hf)
      · exact h p (mem_of_mem_keyErase k p _ h1)

theorem noCalc_runOp (c : Cache K D) (op : Op K D) (h : NoCalc c) :
    NoCalc (runOp c op) := by
  cases op with
  | ins t k d => exact noCalc_insert c t k d h
  | read t k => exact noCalc_get c t k h
  | roc t1 t2 k =>
    simp only [runOp]
    cases hroc : c.retrieve_or_compute t1 t2 k with
    | none => exact h
    | some r => exact noCalc_roc c t1 t2 k r h hroc

theorem noCalc_runOps (c : Cache K D) (ops : List (Op K D)) (h : NoCalc c) :
    NoCalc (runOps c ops) := by
  induction ops generalizing c with
  | nil => exact h
  | cons op ops ih => exact ih (runOp c op) (noCalc_runOp c op h)

theorem insert_cap (c : Cache K D) (t : Nat) (k : K) (v : D) :
    (c.insert t k v).lru_cache.cap = c.lru_cache.cap := by
  simp only [Cache.insert, Cache.withLru_lru]
  exact LruCache.put_cap _ _ _

theorem insert_len_le (c : Cache K D) (t : Nat) (k : K) (v : D)
    (hpos : 0 < c.lru_cache.cap) (h : c.len ≤ c.lru_cache.cap) :
    (c.insert t k v).len ≤ c.lru_cache.cap := by
  simp only [Cache.len, Cache.insert, Cache.withLru_lru]
  exact LruCache.len_put_le _ _ _ hpos h

theorem runInserts_len_le (s : Nat) (hpos : 0 < s) (ops : List (Nat × K × D)) :
    ∀ c : Cache K D, c.lru_cache.cap = s → c.len ≤ s →
      (runInserts c ops).len ≤ s ∧ (runInserts c ops).lru_cache.cap = s := by
  induction ops with
  | nil =>
    intro c hcap hlen
    exact ⟨hlen, hcap⟩
  | cons op ops ih =>
    intro c hcap hlen
    have hcap2 : (c.insert op.1 op.2.1 op.2.2).lru_cache.cap = s := by
      rw [insert_cap, hcap]
    have hlen2 : (c.insert op.1 op.2.1 op.2.2).len ≤ s := by
      have := insert_len_le c op.1 op.2.1 op.2.2 (hcap ▸ hpos) (hcap ▸ hlen)
      rw [hcap] at this
      exact this
    exact ih _ hcap2 hlen2

end SequenceLemmas

/-! Concrete instances mirroring the fixture of the test module: capacity
three, a handler that fails on key minus one and otherwise doubles the key
and bumps the code, positive TTL two hundred, negative TTL one hundred. -/

/-- The miss handler of the test fixture. -/
def dbl (k : Int) (d : Int) (a : Nat) : Bool × Int × Nat :=
  if k = -1 then (false, d, a) else (true, 2 * k, a + 1)

/-- The test fixture cache, freshly constructed. -/
def c3 : Cache Int Int := ⟨⟨3, []⟩, dbl, 200, 100⟩

/-- A variant of the fixture whose positive TTL is zero. -/
def c0z : Cache Int Int := ⟨⟨3, []⟩, dbl, 0, 100⟩

/-- A capacity-two fixture used for the eviction witnesses. -/
def cap2 : Cache Int Int := ⟨⟨2, []⟩, dbl, 200, 100⟩

/-- The capacity-two fixture filled to capacity: key two most recently
used, key one least recently used. -/
def cap2Full : Cache Int Int :=
  ⟨⟨2, [(2, ⟨20, 0, 200, .AVAILABLE⟩), (1, ⟨10, 0, 200, .AVAILABLE⟩)]⟩, dbl, 200, 100⟩

/-- A store already holding a failed entry, as left behind by a failed
computation with expiration one hundred. -/
def cFail : Cache Int Int := ⟨⟨3, [(-1, ⟨0, 0, 100, .FAILED⟩)]⟩, dbl, 200, 100⟩

/-! The claims. -/

/-- Claim C1, defect evaluation: on a miss for key one at time zero on the
fresh fixture cache, the store is empty right after the validity check and
therefore stays empty while the miss computation runs, and the single
store write performed by retrieve_or_compute already carries the terminal
READY status. No CALCULATING placeholder is ever published to the store,
so an observer looking up the key between the start of the call and the
terminal write finds no entry rather than the Computing placeholder the
claim describes. -/
theorem C1_no_placeholder_published :
    (c3.is_in_cache 0 1).1 = false
    ∧ (c3.is_in_cache 0 1).2.lru_cache.entries = []
    ∧ c3.retrieve_or_compute 0 0 1
        = some ((2, 1), ⟨⟨3, [(1, ⟨2, 1, 200, .READY⟩)]⟩, dbl, 200, 100⟩, true) :=
  ⟨by decide, by decide, by rfl⟩

/-- Claim C2: repeated sequential retrieve_or_compute calls on one key,
the first a miss and the rest made while the entry stored by that first
call is within its TTL window, invoke the miss computation exactly once
(the invoked flag is true only on the first call) and return the identical
data and code pair on every call. -/
theorem C2_repeated_calls_single_computation [DecidableEq K] [Inhabited D]
    (c : Cache K D) (k : K) (t0 : Nat) (ts : List Nat)
    (hmiss : (c.is_in_cache t0 k).1 = false)
    (hts : ∀ t ∈ ts, t < (c.missEntry t0 k).expiration) :
    ∃ cf, rocSeq c k (t0 :: ts)
      = some ((((c.missEntry t0 k).data, (c.missEntry t0 k).adhoc_code), true)
          :: ts.map (fun _ => (((c.missEntry t0 k).data, (c.missEntry t0 k).adhoc_code), false)),
          cf) := by
  have hroc := Cache.roc_of_miss c t0 t0 k hmiss
  have hfind : findEntry k
      ((c.withLru (LruCache.put ⟨c.lru_cache.cap, keyErase k c.lru_cache.entries⟩ k
        (c.missEntry t0 k))).lru_cache.entries) = some (c.missEntry t0 k) := by
    simp only [Cache.withLru_lru]
    exact LruCache.findEntry_put_self _ k _
  have hs : (c.missEntry t0 k).status ≠ .CALCULATING := by
    rcases Cache.missEntry_status c t0 k with h | h <;> simp [h]
  obtain ⟨cf, hseq, _⟩ := rocSeq_hits k (c.missEntry t0 k) ts _ hfind hs hts
  refine ⟨cf, ?_⟩
  simp only [rocSeq, hroc, hseq, List.map_cons]

/-- Witness for C2: on the fixture, a miss for key one at time zero
followed by calls at times fifty and one hundred ninety-nine computes once
and returns the pair of data two and code one three times. -/
theorem C2_witness :
    ∃ cf, rocSeq c3 1 [0, 50, 199]
      = some ([((2, 1), true), ((2, 1), false), ((2, 1), false)], cf) := by
  obtain ⟨cf, hc⟩ :=
    C2_repeated_calls_single_computation c3 1 0 [50, 199] (by decide) (by decide)
  exact ⟨cf, hc⟩

/-- Claim C3, counterexample: insert writes an entry whose status is
AVAILABLE, not READY. -/
theorem C3_insert_not_ready_counterexample :
    ((c3.insert 0 1 2).lru_cache.peek 1).map Entry.status = some EntryStatus.AVAILABLE
    ∧ EntryStatus.AVAILABLE ≠ EntryStatus.READY :=
  ⟨by decide, by decide⟩

/-- Claim C3 as amended: after insert the store holds, at the most
recently used position, an entry for the key in AVAILABLE state whose data
is the inserted value, whose code is zero and whose expiration is the
insertion time plus the positive TTL; insert is a total function, hence
always succeeds. -/
theorem C3_insert_writes_available [DecidableEq K] [Inhabited D]
    (c : Cache K D) (t : Nat) (k : K) (v : D) :
    (c.insert t k v).lru_cache.entries.head?
        = some (k, ⟨v, 0, t + c.positive_ttl, .AVAILABLE⟩)
    ∧ (c.insert t k v).lru_cache.peek k
        = some ⟨v, 0, t + c.positive_ttl, .AVAILABLE⟩ := by
  constructor
  · simp only [Cache.insert, Cache.withLru_lru]
    exact LruCache.head_put _ _ _
  · simp only [Cache.insert, Cache.withLru_lru, LruCache.peek]
    exact LruCache.findEntry_put_self _ _ _

/-- Claim C4, counterexample: after a direct insert, get returns the data
of an entry whose state is AVAILABLE, the Empty state, which is neither
READY nor FAILED; so Empty is not transient and its data is observed by a
caller. -/
theorem C4_empty_state_observed_counterexample :
    (((c3.insert 0 5 7).get 0 5).1 = some 7)
    ∧ ((c3.insert 0 5 7).lru_cache.peek 5).map Entry.status = some EntryStatus.AVAILABLE
    ∧ EntryStatus.AVAILABLE ≠ EntryStatus.READY
    ∧ EntryStatus.AVAILABLE ≠ EntryStatus.FAILED :=
  ⟨by decide, by decide, by decide, by decide⟩

/-- Claim C4 as amended: callers never observe a CALCULATING entry. If the
store holds no CALCULATING entry then it never does after any sequence of
public operations; any data returned by get comes from a stored entry that
is not CALCULATING; and a pair returned by retrieve_or_compute is the data
and code of a non-CALCULATING entry stored for the key in the resulting
cache. Empty (AVAILABLE) entries, however, are not transient: insert
publishes them and their data is returned. -/
theorem C4_no_calculating_observable [DecidableEq K] [Inhabited D]
    (c : Cache K D) (hc : NoCalc c) :
    (∀ ops : List (Op K D), NoCalc (runOps c ops))
    ∧ (∀ (t : Nat) (k : K) (d : D), (c.get t k).1 = some d →
        ∃ e, findEntry k c.lru_cache.entries = some e ∧ e.data = d
          ∧ e.status ≠ EntryStatus.CALCULATING)
    ∧ (∀ (t1 t2 : Nat) (k : K) (r : (D × Nat) × Cache K D × Bool),
        c.retrieve_or_compute t1 t2 k = some r →
        ∃ e : Entry D, r.1 = (e.data, e.adhoc_code) ∧ e.status ≠ EntryStatus.CALCULATING
          ∧ findEntry k (r.2.1).lru_cache.entries = some e) := by
  refine ⟨fun ops => noCalc_runOps c ops hc, ?_, ?_⟩
  · intro t k d hget
    cases hf : findEntry k c.lru_cache.entries with
    | none =>
      rw [Cache.get_of_absent c t k hf] at hget
      cases hget
    | some e =>
      by_cases hv : t < e.expiration
      · rw [Cache.get_of_valid c t k e hf hv] at hget
        refine ⟨e, rfl, ?_, hc (k, e) (mem_of_findEntry_eq_some k e _ hf)⟩
        exact Option.some.inj hget
      · rw [Cache.get_of_expired c t k e hf hv] at hget
        cases hget
  · intro t1 t2 k r hroc
    cases hb : (c.is_in_cache t1 k).1 with
    | false =>
      rw [Cache.roc_of_miss c t1 t2 k hb] at hroc
      refine ⟨c.missEntry t2 k, ?_, ?_, ?_⟩
      · rw [← Option.some.inj hroc]
      · rcases Cache.missEntry_status c t2 k with h2 | h2 <;> simp [h2]
      · rw [← Option.some.inj hroc]
        simp only [Cache.withLru_lru]
        exact LruCache.findEntry_put_self _ _ _
    | true =>
      obtain ⟨e, hf, hv⟩ := (Cache.is_in_cache_fst_true_iff c t1 k).mp hb
      by_cases hs : e.status = .CALCULATING
      · rw [roc_of_calculating c t1 t2 k e hf hv hs] at hroc
        cases hroc
      · rw [Cache.roc_of_hit c t1 t2 k e hf hv hs] at hroc
        refine ⟨e, ?_, hs, ?_⟩
        · rw [← Option.some.inj hroc]
        · rw [← Option.some.inj hroc]
          simp only [Cache.withLru_lru]
          exact findEntry_cons_self k e _

/-- Witness for C4: the fixture cache is free of CALCULATING entries, and
stays so through an insert, a retrieve_or_compute and a get. -/
theorem C4_witness :
    NoCalc (runOps c3 [Op.ins 0 1 5, Op.roc 10 10 2, Op.read 20 1]) :=
  (C4_no_calculating_observable c3 (by decide)).1 _

/-- Claim C5: get returns some value exactly when an entry for the key
exists and is valid, validity being that the clock is strictly before the
expiration, and the value is the data of that entry; a present but expired
entry is removed as a side effect and none is returned; with no entry
present, get returns none and leaves the cache unchanged. -/
theorem C5_get_contract [DecidableEq K] [Inhabited D]
    (c : Cache K D) (now : Nat) (k : K) :
    (∀ v : D, (c.get now k).1 = some v
        ↔ ∃ e, findEntry k c.lru_cache.entries = some e ∧ now < e.expiration ∧ e.data = v)
    ∧ (∀ e, findEntry k c.lru_cache.entries = some e → ¬ now < e.expiration →
        (c.get now k).1 = none
        ∧ (c.get now k).2.lru_cache.entries = keyErase k c.lru_cache.entries)
    ∧ (findEntry k c.lru_cache.entries = none →
        (c.get now k).1 = none ∧ (c.get now k).2 = c) := by
  refine ⟨?_, ?_, ?_⟩
  · intro v
    constructor
    · intro hget
      cases hf : findEntry k c.lru_cache.entries with
      | none =>
        rw [Cache.get_of_absent c now k hf] at hget
        cases hget
      | some e =>
        by_cases hv : now < e.expiration
        · rw [Cache.get_of_valid c now k e hf hv] at hget
          exact ⟨e, rfl, hv, Option.some.inj hget⟩
        · rw [Cache.get_of_expired c now k e hf hv] at hget
          cases hget
    · rintro ⟨e, hf, hv, hd⟩
      rw [Cache.get_of_valid c now k e hf hv, hd]
  · intro e hf hv
    rw [Cache.get_of_expired c now k e hf hv]
    exact ⟨rfl, rfl⟩
  · intro hf
    rw [Cache.get_of_absent c now k hf]
    exact ⟨rfl, rfl⟩

/-- Witness for C5: on a store holding a failed entry expiring at one
hundred, a get at fifty returns its data, a get at one hundred removes it
and returns none, and a get for an absent key returns none and leaves the
cache unchanged. -/
theorem C5_witness :
    ((cFail.get 50 (-1)).1 = some 0)
    ∧ ((cFail.get 100 (-1)).1 = none
        ∧ (cFail.get 100 (-1)).2.lru_cache.entries = keyErase (-1) cFail.lru_cache.entries)
    ∧ ((c3.get 0 9).1 = none ∧ (c3.get 0 9).2 = c3) := by
  refine ⟨?_, ?_, ?_⟩
  · exact ((C5_get_contract cFail 50 (-1)).1 0).mpr
      ⟨⟨0, 0, 100, .FAILED⟩, by decide, by decide, by decide⟩
  · exact (C5_get_contract cFail 100 (-1)).2.1 ⟨0, 0, 100, .FAILED⟩ (by decide) (by decide)
  · exact (C5_get_contract c3 0 9).2.2 (by decide)

/-- Claim C6: when no valid entry exists and the computation is invoked,
retrieve_or_compute raises no error whatever the success flag says: it
returns the computed data and code as a normal result and stores them,
under a FAILED status with expiration at the completion time plus the
negative TTL on failure, and under a READY status with expiration at the
completion time plus the positive TTL on success. -/
theorem C6_failure_cached_not_raised [DecidableEq K] [Inhabited D]
    (c : Cache K D) (t_check t_done : Nat) (k : K)
    (hmiss : (c.is_in_cache t_check k).1 = false) :
    ∃ cafter, c.retrieve_or_compute t_check t_done k
        = some (((c.miss_handler k default 0).2.1, (c.miss_handler k default 0).2.2),
            cafter, true)
      ∧ cafter.lru_cache.peek k
          = some ⟨(c.miss_handler k default 0).2.1, (c.miss_handler k default 0).2.2,
              t_done + (if (c.miss_handler k default 0).1
                then c.positive_ttl else c.negative_ttl),
              if (c.miss_handler k default 0).1
                then EntryStatus.READY else EntryStatus.FAILED⟩ := by
  have hroc := Cache.roc_of_miss c t_check t_done k hmiss
  refine ⟨c.withLru (LruCache.put ⟨c.lru_cache.cap, keyErase k c.lru_cache.entries⟩ k
    (c.missEntry t_done k)), ?_, ?_⟩
  · rw [hroc, Cache.missEntry_data, Cache.missEntry_adhoc]
  · simp only [Cache.withLru_lru, LruCache.peek]
    rw [LruCache.findEntry_put_self, Cache.missEntry_eq]

/-- Witness for C6: the fixture handler fails on key minus one; the call
returns data zero with code zero and the store holds a FAILED entry
expiring at one hundred. -/
theorem C6_witness :
    ∃ cafter, c3.retrieve_or_compute 0 0 (-1) = some ((0, 0), cafter, true)
      ∧ cafter.lru_cache.peek (-1) = some ⟨0, 0, 100, .FAILED⟩ := by
  obtain ⟨cafter, h1, h2⟩ := C6_failure_cached_not_raised c3 0 0 (-1) (by decide)
  exact ⟨cafter, h1, h2⟩

/-- Claim C7: from a successfully constructed cache of capacity s, the
occupancy never exceeds s after any sequence of inserts; and an insert of
a fresh key into a store already holding s entries evicts exactly one
entry, the least recently used (last) one, keeping the occupancy at s. -/
theorem C7_capacity_bound_and_lru_eviction [DecidableEq K] [Inhabited D]
    (s : Nat) (mh : K → D → Nat → Bool × D × Nat) (p n : Nat) (c0 : Cache K D)
    (hnew : Cache.new s mh p n = some c0) (ops : List (Nat × K × D)) :
    (runInserts c0 ops).len ≤ s
    ∧ (∀ (c : Cache K D) (t : Nat) (k : K) (v : D),
        c.lru_cache.cap = s → c.len = s → c.lru_cache.peek k = none →
        (c.insert t k v).lru_cache.entries
            = (k, Entry.new v (t + c.positive_ttl) 0) :: c.lru_cache.entries.dropLast
          ∧ (c.insert t k v).len = s) := by
  have hs : s ≠ 0 := by
    intro h0
    rw [h0] at hnew
    simp [Cache.new] at hnew
  have hceq : c0 = ⟨⟨s, []⟩, mh, p, n⟩ := by
    unfold Cache.new at hnew
    rw [if_neg hs] at hnew
    exact (Option.some.inj hnew).symm
  subst hceq
  constructor
  · exact (runInserts_len_le s (Nat.pos_of_ne_zero hs) ops _ rfl (by simp [Cache.len, LruCache.len])).1
  · intro c t k v hcap hlen hpk
    have hfull : (c.insert t k v).lru_cache.entries
        = (k, Entry.new v (t + c.positive_ttl) 0) :: c.lru_cache.entries.dropLast := by
      simp only [Cache.insert, Cache.withLru_lru]
      exact LruCache.put_entries_full _ _ _ hpk (by rw [hcap]; exact hlen)
    refine ⟨hfull, ?_⟩
    have hne : c.lru_cache.entries ≠ [] := by
      intro h0
      have : c.len = 0 := by simp [Cache.len, LruCache.len, h0]
      rw [hlen] at this
      exact hs this
    simp only [Cache.len, LruCache.len, hfull, List.length_cons, List.length_dropLast]
    have hlen2 : c.lru_cache.entries.length = s := hlen
    have hpos : 0 < c.lru_cache.entries.length := List.length_pos.mpr hne
    omega

/-- Witness for C7: three inserts into a capacity-two cache stay within
the bound, and inserting a fresh key into the full capacity-two store
evicts exactly its least recently used entry. -/
theorem C7_witness :
    (runInserts cap2 [(0, 1, 10), (0, 2, 20), (0, 3, 30)]).len ≤ 2
    ∧ (cap2Full.insert 0 3 30).lru_cache.entries
        = (3, Entry.new 30 200 0) :: cap2Full.lru_cache.entries.dropLast := by
  constructor
  · exact (C7_capacity_bound_and_lru_eviction 2 dbl 200 100 cap2 rfl
      [(0, 1, 10), (0, 2, 20), (0, 3, 30)]).1
  · exact ((C7_capacity_bound_and_lru_eviction 2 dbl 200 100 cap2 rfl []).2
      cap2Full 0 3 30 rfl (by decide) (by decide)).1

/-- Claim C8: constructing a cache with capacity zero fails at
construction time, so no capacity-zero cache is ever created; every
positive capacity constructs successfully with exactly that capacity and
an empty store, so the error is neither deferred to use time nor silently
clamped. -/
theorem C8_zero_capacity_construction_error [DecidableEq K] [Inhabited D]
    (mh : K → D → Nat → Bool × D × Nat) (p n : Nat) :
    Cache.new 0 mh p n = (none : Option (Cache K D))
    ∧ ∀ s : Nat, 0 < s → ∃ c : Cache K D, Cache.new s mh p n = some c
        ∧ c.lru_cache.cap = s ∧ c.lru_cache.entries = [] := by
  constructor
  · simp [Cache.new]
  · intro s hspos
    refine ⟨⟨⟨s, []⟩, mh, p, n⟩, ?_, rfl, rfl⟩
    unfold Cache.new
    rw [if_neg (Nat.pos_iff_ne_zero.mp hspos)]

/-- Witness for C8: capacity zero is rejected and capacity three is
accepted unchanged, for the fixture handler and TTLs. -/
theorem C8_witness :
    Cache.new 0 dbl 200 100 = (none : Option (Cache Int Int))
    ∧ ∃ c : Cache Int Int, Cache.new 3 dbl 200 100 = some c
        ∧ c.lru_cache.cap = 3 ∧ c.lru_cache.entries = [] := by
  obtain ⟨h1, h2⟩ := C8_zero_capacity_construction_error dbl 200 100
  exact ⟨h1, h2 3 (by decide)⟩

/-- Claim C9, counterexample: with a zero positive TTL, insert followed by
get at the same instant, so with no elapsed time, returns none: the entry
expires at the instant it is written and validity requires the clock to be
strictly before the expiration. -/
theorem C9_zero_ttl_counterexample :
    ((c0z.insert 0 1 2).get 0 1).1 = none ∧ c0z.positive_ttl = 0 :=
  ⟨by decide, rfl⟩

/-- Claim C9 as amended: insert followed by get returns some of the
inserted value whenever the read happens strictly less than the positive
TTL after the insert; an immediate re-read therefore succeeds exactly when
the positive TTL is nonzero. -/
theorem C9_round_trip_within_ttl [DecidableEq K] [Inhabited D]
    (c : Cache K D) (t0 t1 : Nat) (k : K) (v : D)
    (h : t1 < t0 + c.positive_ttl) :
    ((c.insert t0 k v).get t1 k).1 = some v := by
  have hf : findEntry k (c.insert t0 k v).lru_cache.entries
      = some (Entry.new v (t0 + c.positive_ttl) 0) := by
    simp only [Cache.insert, Cache.withLru_lru]
    exact LruCache.findEntry_put_self _ _ _
  rw [Cache.get_of_valid (c.insert t0 k v) t1 k _ hf h]
  rfl

/-- Witness for C9: on the fixture with positive TTL two hundred, insert
at time zero and get at time one hundred ninety-nine returns the value. -/
theorem C9_witness : ((c3.insert 0 1 2).get 199 1).1 = some 2 :=
  C9_round_trip_within_ttl c3 0 199 1 2 (by decide)

/-- Claim C10: get never inspects the lifecycle state: whatever the status
of the entry stored under the key, a get while the clock is strictly
before its expiration returns some of the stored data. In particular a
FAILED entry inside its negative-TTL window is served exactly like a
cached success, with its default-seeded data. -/
theorem C10_get_ignores_status [DecidableEq K] [Inhabited D]
    (c : Cache K D) (now : Nat) (k : K) (e : Entry D)
    (h : findEntry k c.lru_cache.entries = some e) (hv : now < e.expiration) :
    (c.get now k).1 = some e.data := by
  rw [Cache.get_of_valid c now k e h hv]

/-- Witness for C10: the stored FAILED entry is served by get within its
negative-TTL window as if it were a success. -/
theorem C10_witness : (cFail.get 99 (-1)).1 = some 0 :=
  C10_get_ignores_status cFail 99 (-1) ⟨0, 0, 100, .FAILED⟩ (by decide) (by decide)

end RustCache
